import Mathlib

/-!
# Verification of flask-assets-pipeline's asset resolution core

A shallow embedding of the asset-resolution and manifest-conversion core of
the `flask_assets_pipeline` package, together with proofs about it.

Python strings are modelled as `List Char` (Python's `len`/slicing are
per-character, exactly as on `List Char`).  Python dicts are modelled as
association lists with unique keys, built only through `dictSet`-style
operations which mirror CPython semantics: assignment to an existing key
overwrites the value in place (keeping the key's position), assignment to a
fresh key appends it at the end.

URL percent-decoding inside `urllib.parse.parse_qs` is not modelled (all
inputs considered here contain no percent-escapes or plus signs); the
splitting/grouping behaviour of `parse_qs` is modelled faithfully.
-/

namespace FlaskAssets

/-- Python strings, modelled character by character. -/
abbrev Str := List Char

/-- Embed a Lean string literal as a Python string. -/
def lit (s : String) : Str := s.data

/-- The value of a metadata entry: either a Python `str` or a Python
`list[str]` (the latter is what `urllib.parse.parse_qs` produces). -/
inductive MetaVal where
  | str (s : Str)
  | list (l : List Str)
deriving DecidableEq, Repr

/-- A Python dict used for per-URL metadata. -/
abbrev Meta := List (Str × MetaVal)

/-- `d.get(k)` / `d[k]` lookup on a Python dict (first matching key). -/
def dictGet {κ α : Type} [BEq κ] : List (κ × α) → κ → Option α
  | [], _ => none
  | (k', v) :: d, k => if k' == k then some v else dictGet d k

/-- `d[k] = v` on a Python dict: overwrite in place if the key exists,
append at the end otherwise. -/
def dictSet {κ α : Type} [BEq κ] : List (κ × α) → κ → α → List (κ × α)
  | [], k, v => [(k, v)]
  | (k', v') :: d, k, v => if k' == k then (k, v) :: d else (k', v') :: dictSet d k v

/-- `d.update(e)` on Python dicts. -/
def dictUpdate {κ α : Type} [BEq κ] (d e : List (κ × α)) : List (κ × α) :=
  e.foldl (fun acc p => dictSet acc p.1 p.2) d

/-- `d.setdefault(k, v)` (ignoring the returned value). -/
def dictSetdefault {κ α : Type} [BEq κ] (d : List (κ × α)) (k : κ) (v : α) :
    List (κ × α) :=
  match dictGet d k with
  | some _ => d
  | none => d ++ [(k, v)]

/-- `d.setdefault(k, []).extend(xs)`: append `xs` to the list stored at `k`,
creating the key at the end of the dict if it is absent. -/
def dictAppend {κ α : Type} [BEq κ] : List (κ × List α) → κ → List α → List (κ × List α)
  | [], k, xs => [(k, xs)]
  | (k', v) :: d, k, xs =>
      if k' == k then (k', v ++ xs) :: d else (k', v) :: dictAppend d k xs

/-- `k in d` on a Python dict. -/
def dictMem {κ α : Type} [BEq κ] (d : List (κ × α)) (k : κ) : Bool :=
  (dictGet d k).isSome

/-- Option fallback (`a if a is not None else b`). -/
def optOr {α : Type} : Option α → Option α → Option α
  | some v, _ => some v
  | none, b => b

/-- Python `s.split(c)` for a single-character separator; always non-empty,
`"".split(c) == [""]`. -/
def splitAllChar : Str → Char → List Str
  | [], _ => [[]]
  | a :: s, c =>
      if a == c then [] :: splitAllChar s c
      else
        match splitAllChar s c with
        | t :: ts => (a :: t) :: ts
        | [] => [[a]]

/-- Python `s.split(c, 1)` when the separator occurs: the part before the
first `c` and the part after it; `none` when `c` does not occur in `s`. -/
def splitOnceChar : Str → Char → Option (Str × Str)
  | [], _ => none
  | a :: s, c =>
      if a == c then some ([], s)
      else (splitOnceChar s c).map (fun p => (a :: p.1, p.2))

/-- `[a-z]` (the character class used by the reference-grammar regexes). -/
def isLowerAlpha (c : Char) : Bool := 'a' ≤ c && c ≤ 'z'

/-- The `PRELOAD_AS_EXT_MAPPING` table from `flask_assets_pipeline/__init__.py`. -/
def preloadAsExtMapping : List (Str × Str) :=
  [ (lit "css", lit "style"), (lit "js", lit "script"),
    (lit "png", lit "image"), (lit "jpg", lit "image"), (lit "jpeg", lit "image"),
    (lit "gif", lit "image"), (lit "webp", lit "image"), (lit "svg", lit "image"),
    (lit "woff", lit "font"), (lit "woff2", lit "font"), (lit "ttf", lit "font"),
    (lit "otf", lit "font"),
    (lit "mp4", lit "video"), (lit "webm", lit "video"), (lit "ogg", lit "video"),
    (lit "mp3", lit "audio"), (lit "wav", lit "audio"), (lit "flac", lit "audio"),
    (lit "aac", lit "audio"),
    (lit "json", lit "fetch"), (lit "html", lit "fetch") ]

/-- `filename.split(".")[-1]`: the piece after the last dot (the whole string
when there is no dot). -/
def lastExtOf (f : Str) : Str := ((splitAllChar f '.').getLast?).getD f

/-- `PRELOAD_AS_EXT_MAPPING.get(filename.split(".")[-1], "fetch")`. -/
def preloadContentType (f : Str) : Str :=
  (dictGet preloadAsExtMapping (lastExtOf f)).getD (lit "fetch")

/-- `AssetsPipeline.url`, lines 327 and 334-337: matching the anchored regex
`(static|import|prefetch|modulepreload|preload( as [a-z]+)?) ` against the
start of a reference string.  Returns `m.group(1)` together with the
remainder of the string after the match (`filename[m.end():]`).

The `preload( as [a-z]+)?` branch reflects the regex's backtracking: the
greedy `[a-z]+` swallows a maximal lowercase run, and since any shorter run
ends on a lowercase character (never on the required space), the optional
group either matches that maximal run followed by a space or is dropped
entirely. -/
def matchModifier (s : Str) : Option (Str × Str) :=
  if (lit "static ").isPrefixOf s then some (lit "static", s.drop 7)
  else if (lit "import ").isPrefixOf s then some (lit "import", s.drop 7)
  else if (lit "prefetch ").isPrefixOf s then some (lit "prefetch", s.drop 9)
  else if (lit "modulepreload ").isPrefixOf s then some (lit "modulepreload", s.drop 14)
  else if (lit "preload").isPrefixOf s then
    let t := s.drop 7
    if (lit " as ").isPrefixOf t then
      let u := t.drop 4
      let w := u.takeWhile isLowerAlpha
      if w ≠ [] ∧ (u.drop w.length).head? = some ' ' then
        some (lit "preload as " ++ w, (u.drop w.length).drop 1)
      else if t.head? = some ' ' then some (lit "preload", t.drop 1)
      else none
    else if t.head? = some ' ' then some (lit "preload", t.drop 1)
    else none
  else none

/-- `AssetsPipeline.url`, lines 336-343: the metadata derived from a matched
modifier (`preload as ct` splits into modifier plus content type; a bare
`preload` infers the content type from the path's extension). -/
def refMeta (modifier rest : Str) : Meta :=
  if (lit "preload as ").isPrefixOf modifier then
    [(lit "modifier", MetaVal.str (lit "preload")),
     (lit "content_type", MetaVal.str (modifier.drop 11))]
  else if modifier == lit "preload" then
    [(lit "modifier", MetaVal.str (lit "preload")),
     (lit "content_type", MetaVal.str (preloadContentType rest))]
  else [(lit "modifier", MetaVal.str modifier)]

/-- `urllib.parse.parse_qs(fragment)` (without percent-decoding): split on
`&`, keep only fields of the form `name=value` with a non-empty value, and
group values per name in order of first appearance. -/
def parseQs (s : Str) : Meta :=
  ((splitAllChar s '&').filterMap (fun field =>
      match splitOnceChar field '=' with
      | some (n, v) => if v == ([] : Str) then none else some (n, v)
      | none => none)).foldl
    (fun d p =>
      match dictGet d p.1 with
      | some (MetaVal.list l) => dictSet d p.1 (MetaVal.list (l ++ [p.2]))
      | _ => dictSet d p.1 (MetaVal.list [p.2])) []

/-- `AssetsPipeline.url`, lines 344-346: split a `#fragment` off the filename
(first `#` only) and merge the fragment's query pairs into the metadata. -/
def parseFragment (filename : Str) (meta : Meta) : Str × Meta :=
  match splitOnceChar filename '#' with
  | some (p, frag) => (p, dictUpdate meta (parseQs frag))
  | none => (filename, meta)

/-- The string-form reference parser of `AssetsPipeline.url` (lines 326-346):
modifier prefix, derived metadata, fragment split. -/
def parseRefStr (s : Str) : Str × Meta :=
  match matchModifier s with
  | some (m, rest) => parseFragment rest (refMeta m rest)
  | none => parseFragment s []

/-- Modelled from the spec (testable property 1): re-serialization of a
parsed `(path, metadata)` pair "through the same modifier vocabulary" — the
modifier (with its content type, for `preload`) is written back as the
grammar prefix in front of the path.  No such function exists in the source;
this is the specification-side definition the idempotence property is
stated against. -/
def serializeRef (p : Str) (m : Meta) : Str :=
  match dictGet m (lit "modifier") with
  | some (MetaVal.str mod) =>
      if mod == lit "preload" then
        match dictGet m (lit "content_type") with
        | some (MetaVal.str ct) => lit "preload as " ++ ct ++ lit " " ++ p
        | _ => lit "preload " ++ p
      else mod ++ lit " " ++ p
  | _ => p

/-- A reference as accepted by `AssetsPipeline.url`: a plain string, a
`(path, metadata_dict)` pair, or a `(path, modifier)` pair whose non-dict
second component is wrapped as `{"modifier": value}`. -/
inductive RefArg where
  | str (s : Str)
  | pair (path : Str) (meta : Meta)
  | pairRaw (path : Str) (v : MetaVal)
deriving DecidableEq, Repr

/-- The full front half of `AssetsPipeline.url` (lines 326-346). -/
def parseRef : RefArg → Str × Meta
  | RefArg.str s => parseRefStr s
  | RefArg.pair p m => parseFragment p m
  | RefArg.pairRaw p v => parseFragment p [(lit "modifier", v)]

/-- An entry of a mapping value: either a bare URL string or a
`[url, metadata]` pair (`is_abs_url` handling happens later). -/
inductive Output where
  | bare (url : Str)
  | withMeta (url : Str) (meta : Meta)
deriving DecidableEq, Repr

/-- The persisted `SourcePath -> [Output]` mapping. -/
abbrev Mapping := List (Str × List Output)

/-- `AssetsPipeline.resolve_asset_filename_to_url` (lines 315-324), with the
effective mapping passed explicitly (the surrounding code only chooses which
mapping object to use: cached, state-level, or re-read in debug mode). -/
def resolveAssetFilenameToUrl (mapping : Mapping) (filename : Str) : List Output :=
  (dictGet mapping filename).getD [Output.bare filename]

/-- `is_abs_url` (line 650-651): `re.match("([a-z]+:)?//", path)`.  As with
the modifier regex, backtracking inside `[a-z]+` is dead (a shorter run ends
on a lowercase character, never on the required colon). -/
def isAbsUrl (s : Str) : Bool :=
  (lit "//").isPrefixOf s ||
    (let w := s.takeWhile isLowerAlpha
     w ≠ [] && (lit "://").isPrefixOf (s.drop w.length))

/-- The configuration and host-framework services `AssetsPipeline.url`
consults: CDN settings, the assets endpoint name, and Flask's `url_for`
(an external collaborator, modelled as an opaque function of the endpoint,
the filename and the `_external` flag). -/
structure Config where
  cdnEnabled : Bool
  cdnHost : Str
  assetsEndpoint : Str
  urlFor : Str → Str → Bool → Str

/-- `AssetsPipeline.url`, lines 349-365: process one candidate Output —
merge reference-level metadata under output-level metadata, default
`crossorigin` for absolute external URLs, route relative names through
`url_for`, and prepend the CDN host when enabled. -/
def processUrl (cfg : Config) (external : Bool) (meta0 : Meta) (o : Output) :
    Str × Meta :=
  let p : Str × Meta :=
    match o with
    | Output.bare u => (u, meta0)
    | Output.withMeta u m => (u, dictUpdate meta0 m)
  if isAbsUrl p.1 then
    (p.1, dictSetdefault p.2 (lit "crossorigin") (MetaVal.str (lit "anonymous")))
  else
    let url1 :=
      if p.1.head? = some '/' then p.1
      else
        cfg.urlFor
          (if dictGet p.2 (lit "modifier") == some (MetaVal.str (lit "static"))
           then lit "static" else cfg.assetsEndpoint)
          p.1
          (if cfg.cdnEnabled then false else external)
    (if cfg.cdnEnabled then cfg.cdnHost ++ url1 else url1, p.2)

/-- The processed `(url, metadata)` pairs of one reference, in resolution
order, before the per-reference dict deduplicates them. -/
def urlRawPairs (cfg : Config) (mapping : Mapping) (external : Bool)
    (f : RefArg) : List (Str × Meta) :=
  (resolveAssetFilenameToUrl mapping (parseRef f).1).map
    (processUrl cfg external (parseRef f).2)

/-- `AssetsPipeline.url` with `with_meta=True, single=False` (lines 348-368):
the items of the per-reference `urls` dict. -/
def urlResolve (cfg : Config) (mapping : Mapping) (f : RefArg)
    (external : Bool) : List (Str × Meta) :=
  (urlRawPairs cfg mapping external f).foldl (fun d p => dictSet d p.1 p.2) []

/-- `AssetsPipeline.urls` with an explicit reference list (lines 376-379):
merge every reference's resolved dict into one combined dict. -/
def urlsResolve (cfg : Config) (mapping : Mapping) (paths : List RefArg) :
    List (Str × Meta) :=
  paths.foldl (fun acc f => dictUpdate acc (urlResolve cfg mapping f false)) []

/-- Insert an inclusion entry into an already-sorted list: before the first
entry whose priority is not greater.  Together with `insertionSortDesc` this
is the stable descending sort `sorted(includes, key=lambda i: i[0],
reverse=True)` of `AssetsPipeline.urls` (line 373). -/
def insertDesc (x : Int × Str) : List (Int × Str) → List (Int × Str)
  | [] => [x]
  | y :: ys => if x.1 < y.1 then y :: insertDesc x ys else x :: y :: ys

/-- Stable sort by descending priority (see `insertDesc`). -/
def insertionSortDesc : List (Int × Str) → List (Int × Str)
  | [] => []
  | x :: xs => insertDesc x (insertionSortDesc xs)

/-- `AssetsPipeline.urls` with `paths=None` (lines 372-373): the render order
of the active inclusion list. -/
def renderOrderPaths (includes : List (Int × Str)) : List Str :=
  (insertionSortDesc includes).map (fun i => i.2)

/-- Python truthiness of a metadata value (`if v`). -/
def metaValTruthy : MetaVal → Bool
  | MetaVal.str s => s ≠ []
  | MetaVal.list l => l ≠ []

/-- Python `str(v)` / `"%s" % v` of a metadata value.  A `list` renders via
its `repr` (assuming its elements contain no quotes or backslashes, which is
all this development ever feeds it). -/
def metaValStr : MetaVal → Str
  | MetaVal.str s => s
  | MetaVal.list l =>
      lit "[" ++ (List.intercalate (lit ", ") (l.map (fun s => '\'' :: s ++ ['\'']))) ++ lit "]"

/-- `AssetsPipeline.tags`, lines 390-394: serialize the pass-through
metadata (everything truthy except `modifier`/`content_type`) as
` key="value"` HTML attributes. -/
def renderAttrs (meta : Meta) : Str :=
  (meta.filterMap (fun p =>
      if metaValTruthy p.2 && p.1 ≠ lit "modifier" && p.1 ≠ lit "content_type" then
        some (lit " " ++ p.1 ++ lit "=\x22" ++ metaValStr p.2 ++ lit "\x22")
      else none)).flatten

/-- `AssetsPipeline.tags`, lines 395-408: classify and render one resolved
`(url, meta)` entry.  The `Bool` is `true` for hints (pushed onto `pre`),
`false` for script/style tags (pushed onto `tags`).  `none` models the
`KeyError` raised by `meta["content_type"]` when a `preload` entry carries
no content type. -/
def renderEntry (e : Str × Meta) : Option (Bool × Str) :=
  let url := e.1
  let meta := e.2
  let attrs := renderAttrs meta
  if dictGet meta (lit "modifier") == some (MetaVal.str (lit "prefetch")) then
    some (true, lit "<link rel=\x22prefetch\x22 href=\x22" ++ url ++ lit "\x22" ++ attrs ++ lit ">")
  else if dictGet meta (lit "modifier") == some (MetaVal.str (lit "preload")) then
    match dictGet meta (lit "content_type") with
    | some ct =>
        some (true, lit "<link rel=\x22preload\x22 href=\x22" ++ url ++ lit "\x22 as=\x22" ++
          metaValStr ct ++ lit "\x22" ++ attrs ++ lit ">")
    | none => none
  else if dictGet meta (lit "modifier") == some (MetaVal.str (lit "modulepreload")) then
    some (true, lit "<link rel=\x22modulepreload\x22 href=\x22" ++ url ++ lit "\x22" ++ attrs ++ lit ">")
  else if dictGet meta (lit "modifier") == some (MetaVal.str (lit "import")) then
    some (false, lit "<script src=\x22" ++ url ++ lit "\x22 type=\x22module\x22" ++ attrs ++ lit "></script>")
  else if (lit ".css").isSuffixOf url ||
      dictGet meta (lit "content_type") == some (MetaVal.str (lit "style")) then
    some (false, lit "<link rel=\x22stylesheet\x22 href=\x22" ++ url ++ lit "\x22" ++ attrs ++ lit ">")
  else
    some (false, lit "<script src=\x22" ++ url ++ lit "\x22" ++ attrs ++ lit "></script>")

/-- `json.dumps({"imports": import_map})` with the default separators
(no escaping modelled: import-map names and URLs contain no quotes). -/
def importMapBlock (im : List (Str × Str)) : Str :=
  lit "<script type=\x22importmap\x22>\x7b\x22imports\x22: \x7b" ++
    (List.intercalate (lit ", ")
      (im.map (fun p => lit "\x22" ++ p.1 ++ lit "\x22: \x22" ++ p.2 ++ lit "\x22"))) ++
    lit "\x7d\x7d</script>"

/-- The `for url, meta in self.urls(with_meta=True)` loop of
`AssetsPipeline.tags` (lines 389-408), accumulating the `pre` and `tags`
lists. -/
def tagsCore : List (Str × Meta) → List Str → List Str → Option (List Str × List Str)
  | [], pre, tags => some (pre, tags)
  | e :: rest, pre, tags =>
      match renderEntry e with
      | none => none
      | some (true, s) => tagsCore rest (pre ++ [s]) tags
      | some (false, s) => tagsCore rest pre (tags ++ [s])

/-- `AssetsPipeline.tags` (lines 381-411) applied to an already-resolved
URL set: optional import-map preamble, the classification loop, the
debug-mode live-reload snippet (an opaque string), and the final
`"\n".join(pre + tags)`. -/
def tagsRender (im : List (Str × Str)) (debug : Bool) (lrSnippet : Str)
    (resolved : List (Str × Meta)) : Option Str :=
  let t0 : List Str := if im.isEmpty then [] else [importMapBlock im]
  (tagsCore resolved [] t0).map (fun pt =>
    let ts := if debug then pt.2 ++ [lrSnippet] else pt.2
    List.intercalate (lit "\n") (pt.1 ++ ts))

/-- The hint tags (`pre` entries) an entry list produces, in order. -/
def hintRenders (resolved : List (Str × Meta)) : List Str :=
  resolved.filterMap (fun e =>
    match renderEntry e with
    | some (true, s) => some s
    | _ => none)

/-- The script/style tags (`tags` entries) an entry list produces, in order. -/
def bodyRenders (resolved : List (Str × Meta)) : List Str :=
  resolved.filterMap (fun e =>
    match renderEntry e with
    | some (false, s) => some s
    | _ => none)

/-- The path-rewriting configuration of the manifest converters:
`self.state.output_url`, `os.path.relpath(self.state.output_folder)`,
`os.path.relpath(self.state.assets_folder) + "/"`, and `os.path.abspath`
(an external collaborator, modelled as an opaque function). -/
structure ConvertCfg where
  outputUrl : Str
  outputrel : Str
  inputrel : Str
  abspath : Str → Str

/-- One entry of an output record's `imports` list. -/
structure ImportInfo where
  path : Str
  kind : Str
deriving DecidableEq, Repr, Inhabited

/-- One record of the build-graph document's `outputs` table. -/
structure OutputInfo where
  entryPoint : Option Str
  cssBundle : Option Str
  imports : List ImportInfo
deriving DecidableEq, Repr, Inhabited

/-- `self.state.output_url + path[len(outputrel):]`. -/
def rewriteUrl (cfg : ConvertCfg) (p : Str) : Str :=
  cfg.outputUrl ++ p.drop cfg.outputrel.length

/-- `AssetsPipeline.convert_esbuild_metafile`, lines 556-560: the mapping key
derived from an output record's `entryPoint`. -/
def entryKey (cfg : ConvertCfg) (ep : Str) : Str :=
  if cfg.inputrel.isPrefixOf ep then ep.drop cfg.inputrel.length else cfg.abspath ep

/-- `AssetsPipeline.convert_esbuild_metafile`, lines 562-575 (identical in
`EsbuildBuilder.convert_metafile`, lines 156-169): the Outputs appended for
one output record — the rewritten output URL (tagged `modifier=import` when
it ends in `.js`), then the rewritten `cssBundle` URL when present, then one
`modulepreload`-tagged Output per `import-statement` import. -/
def entryOutputs (cfg : ConvertCfg) (outputName : Str) (info : OutputInfo) :
    List Output :=
  (let url := rewriteUrl cfg outputName
   [if (lit ".js").isSuffixOf url then
      Output.withMeta url [(lit "modifier", MetaVal.str (lit "import"))]
    else Output.bare url]) ++
  (match info.cssBundle with
   | some css => [Output.bare (rewriteUrl cfg css)]
   | none => []) ++
  info.imports.filterMap (fun i =>
    if i.kind == lit "import-statement" then
      some (Output.withMeta (rewriteUrl cfg i.path)
        [(lit "modifier", MetaVal.str (lit "modulepreload"))])
    else none)

/-- One iteration of the `for output, info in meta["outputs"].items()` loop
of `AssetsPipeline.convert_esbuild_metafile` (lines 553-575). -/
def convertStep (cfg : ConvertCfg) (mapping : Mapping) (rec : Str × OutputInfo) :
    Mapping :=
  match rec.2.entryPoint with
  | none => mapping
  | some ep => dictAppend mapping (entryKey cfg ep) (entryOutputs cfg rec.1 rec.2)

/-- The mapping produced by `AssetsPipeline.convert_esbuild_metafile`
(lines 552-577) from a build-graph document's `outputs` table. -/
def convertEsbuildMapping (cfg : ConvertCfg) (outputs : List (Str × OutputInfo)) :
    Mapping :=
  outputs.foldl (convertStep cfg) []

/-- The inputs list produced by `AssetsPipeline.convert_esbuild_metafile`
(lines 546-550) from the document's `inputs` table keys. -/
def convertEsbuildInputs (cfg : ConvertCfg) (inputs : List Str) : List Str :=
  inputs.map (fun i =>
    if cfg.inputrel.isPrefixOf i then i.drop cfg.inputrel.length else cfg.abspath i)

/-- Modelled from the spec: the `Entrypoint` objects consumed by
`EsbuildBuilder.convert_metafile` (their class lives outside `src/`).  Per
spec section 3: one declared unit of build input with its original declared
source path (`filename`), its canonical mapping key (`path`), and whether it
is an external absolute URL (`is_abs`). -/
structure Entrypoint where
  filename : Str
  path : Str
  is_abs : Bool
deriving DecidableEq, Repr

/-- One iteration of the output loop of `EsbuildBuilder.convert_metafile`
(lines 146-169): skip records without an `entryPoint`, skip records whose
resolved absolute entry path is not a declared entrypoint, otherwise record
the consumed input (for non-absolute entrypoints) and append the same
`entryOutputs` under the entrypoint's canonical `path`. -/
def convertStepB (cfg : ConvertCfg) (entrypoints : List (Str × Entrypoint))
    (acc : List Str × Mapping) (rec : Str × OutputInfo) : List Str × Mapping :=
  match rec.2.entryPoint with
  | none => acc
  | some ep0 =>
      match dictGet entrypoints (cfg.abspath ep0) with
      | none => acc
      | some e =>
          (if e.is_abs then acc.1 else acc.1 ++ [e.filename],
           dictAppend acc.2 e.path (entryOutputs cfg rec.1 rec.2))

/-- `EsbuildBuilder.convert_metafile` (lines 130-171): the `(inputs,
mapping)` pair produced from the document's `outputs` table, given the index
of declared entrypoints keyed by resolved absolute path. -/
def convertMetafileB (cfg : ConvertCfg) (entrypoints : List (Str × Entrypoint))
    (outputs : List (Str × OutputInfo)) : List Str × Mapping :=
  outputs.foldl (convertStepB cfg entrypoints) ([], [])

/-- `EsbuildBuilder.write_mapping_from_metafile` (lines 173-181) and the CLI
`_convert_esbuild_metafile` (cli.py lines 253-261): the metafile's content is
`none` when `json.load` fails with a `JSONDecodeError`, in which case the
function returns `False` and the previously persisted mapping file is left
untouched; otherwise the converted mapping is written (non-merge mode). -/
def writeMappingFromMetafile (metafileContent : Option (List (Str × OutputInfo)))
    (cfg : ConvertCfg) (prevMappingFile : Mapping) : Bool × Mapping :=
  match metafileContent with
  | none => (false, prevMappingFile)
  | some outputs => (true, convertEsbuildMapping cfg outputs)

/-- `AssetsPipeline.read_mapping` (lines 232-237): the mapping-file read is
`none` whenever anything goes wrong (missing file, unreadable file, invalid
JSON — the source catches every `Exception`), and the empty mapping is
returned in that case. -/
def readMapping (fileRead : Option Mapping) : Mapping :=
  fileRead.getD []

/-- A reference to a Python list object.  `include()` mutates whichever list
object `g.include_assets` / `state.include` names, so aliasing must be
modelled explicitly to state that the request-local queue is a *copy*. -/
abbrev Handle := Nat

/-- An inclusion list: `(priority, reference)` pairs. -/
abbrev IncludeList := List (Int × Str)

/-- The store of live Python list objects. -/
structure Heap where
  cells : List (Handle × IncludeList)
  next : Handle

/-- Allocate a fresh list object (e.g. the result of `list(state.include)`). -/
def halloc (h : Heap) (v : IncludeList) : Heap × Handle :=
  ({ cells := dictSet h.cells h.next v, next := h.next + 1 }, h.next)

/-- Dereference a list object. -/
def hget (h : Heap) (r : Handle) : IncludeList :=
  (dictGet h.cells r).getD []

/-- Mutate a list object in place. -/
def hmut (h : Heap) (r : Handle) (f : IncludeList → IncludeList) : Heap :=
  { h with cells := dictSet h.cells r (f (hget h r)) }

/-- The ambient state `include()` sees: the heap, `state.include`
(`appInclude`), `g.include_assets` when a request context is active
(`gInclude`, with `has_request_context()` = `gInclude.isSome`), and
`state.bundles` flattened to the entrypoint lists `bundle_files(name, True)`
returns (the entry-decomposition inside `bundle_files` is orthogonal to the
aliasing question and elided). -/
structure IncludeEnv where
  heap : Heap
  appInclude : Handle
  gInclude : Option Handle
  bundles : List (Str × List Str)

/-- `assets = g.include_assets if has_request_context() else self.state.include`
(line 308). -/
def includeTarget (e : IncludeEnv) : Handle :=
  e.gInclude.getD e.appInclude

/-- The `for p in path` loop of `AssetsPipeline.include` (lines 309-313):
bundle names expand to their entrypoint files, anything else is appended as
a literal reference. -/
def includeList (bundles : List (Str × List Str)) (target : IncludeList)
    (paths : List Str) (priority : Int) : IncludeList :=
  paths.foldl (fun t p =>
    match dictGet bundles p with
    | some files => t ++ files.map (fun f => (priority, f))
    | none => t ++ [(priority, p)]) target

/-- One call to `AssetsPipeline.include` (lines 305-313). -/
def includeCall (e : IncludeEnv) (paths : List Str) (priority : Int) : IncludeEnv :=
  { e with heap := (hmut e.heap (includeTarget e)
      (fun t => includeList e.bundles t paths priority)) }

/-- The `before_request` hook (lines 214-218): `g.include_assets =
list(state.include)` allocates a *fresh copy* of the application-level list,
then (when tailwind is configured) `include()` appends the tailwind output
URL to the request-local queue. -/
def beforeRequest (e : IncludeEnv) (tailwind : Option Str) (outputUrl : Str) :
    IncludeEnv :=
  let ar := halloc e.heap (hget e.heap e.appInclude)
  let e1 : IncludeEnv := { e with heap := ar.1, gInclude := some ar.2 }
  match tailwind with
  | some tw => includeCall e1 [outputUrl ++ lit "/" ++ tw] 1
  | none => e1

/-- A sequence of `include()` calls. -/
def runIncludes (e : IncludeEnv) (calls : List (List Str × Int)) : IncludeEnv :=
  calls.foldl (fun acc c => includeCall acc c.1 c.2) e

/-- A concrete resolver configuration for witnesses and counterexamples:
CDN disabled, the default `static` assets endpoint, and a `url_for` that
renders `/endpoint/filename`. -/
def sampleCfg : Config :=
  { cdnEnabled := false
    cdnHost := lit ""
    assetsEndpoint := lit "static"
    urlFor := fun ep f _ => lit "/" ++ ep ++ lit "/" ++ f }

/-- A concrete converter configuration for witnesses and counterexamples:
public output URL `/static/dist`, on-disk output prefix `dist`, assets
prefix `assets/`, and an `os.path.abspath` that roots at `/abs/`. -/
def sampleConvertCfg : ConvertCfg :=
  { outputUrl := lit "/static/dist"
    outputrel := lit "dist"
    inputrel := lit "assets/"
    abspath := fun p => lit "/abs/" ++ p }

/-- The synthetic build-graph `outputs` table from the spec's manifest
round-trip example: entrypoint `app.js` producing `app-ABC123.js` with a
`cssBundle` of `app-ABC123.css`, one static import `chunk-XYZ.js`, and (to
exercise the filter) one dynamic import `lazy.js`. -/
def sampleMetafileOutputs : List (Str × OutputInfo) :=
  [ (lit "dist/app-ABC123.js",
     { entryPoint := some (lit "assets/app.js")
       cssBundle := some (lit "dist/app-ABC123.css")
       imports := [ { path := lit "dist/chunk-XYZ.js", kind := lit "import-statement" },
                    { path := lit "dist/lazy.js", kind := lit "dynamic-import" } ] }),
    (lit "dist/chunk-XYZ.js",
     { entryPoint := none, cssBundle := none, imports := [] }) ]

/-- A concrete application state for the request-isolation witness: one
app-level inclusion already registered, no bundles, no request active. -/
def sampleIncludeEnv : IncludeEnv :=
  { heap := { cells := [(0, [(1, lit "base.js")])], next := 1 }
    appInclude := 0
    gInclude := none
    bundles := [] }

/-- The per-key contributions of a document's `outputs` table: for each
record, in document order, the Output list it appends under mapping key `k`
(records without an `entryPoint`, or whose key differs, contribute
nothing).  A specification-side characterization used to state what the
converter's fold computes. -/
def keyContribs (cfg : ConvertCfg) (k : Str) (outputs : List (Str × OutputInfo)) :
    List (List Output) :=
  outputs.filterMap (fun rec =>
    match rec.2.entryPoint with
    | none => none
    | some ep =>
        if entryKey cfg ep == k then some (entryOutputs cfg rec.1 rec.2)
        else none)

/-! ## Lemmas about the Python-dict model -/

theorem dictGet_append {κ α : Type} [BEq κ] (a b : List (κ × α)) (k : κ) :
    dictGet (a ++ b) k = optOr (dictGet a k) (dictGet b k) := by
  induction a with
  | nil => simp [dictGet, optOr]
  | cons p a ih =>
      obtain ⟨k', v⟩ := p
      by_cases h : k' == k <;> simp [dictGet, h, ih, optOr]

theorem optOr_assoc {α : Type} (a b c : Option α) :
    optOr (optOr a b) c = optOr a (optOr b c) := by
  cases a <;> simp [optOr]

theorem optOr_none_right {α : Type} (a : Option α) : optOr a none = a := by
  cases a <;> simp [optOr]

theorem dictGet_dictSet {κ α : Type} [BEq κ] [LawfulBEq κ]
    (d : List (κ × α)) (k k' : κ) (v : α) :
    dictGet (dictSet d k v) k' = if k == k' then some v else dictGet d k' := by
  induction d with
  | nil => simp [dictGet, dictSet]
  | cons p d ih =>
      obtain ⟨a, b⟩ := p
      by_cases hak : a == k
      · have : a = k := eq_of_beq hak
        subst this
        by_cases hkk : a == k' <;> simp [dictGet, dictSet, hak, hkk]
      · by_cases hak' : a == k'
        · have : a = k' := eq_of_beq hak'
          subst this
          have hkk : (k == a) = false := by
            rcases h : k == a with _ | _
            · rfl
            · exact absurd (by rw [eq_of_beq h] at hak; exact hak) (by simp)
          simp [dictGet, dictSet, hak, hak', hkk]
        · simp [dictGet, dictSet, hak, hak', ih]

theorem dictGet_eq_none_iff {κ α : Type} [BEq κ] [LawfulBEq κ]
    (d : List (κ × α)) (k : κ) :
    dictGet d k = none ↔ k ∉ d.map Prod.fst := by
  induction d with
  | nil => simp [dictGet]
  | cons p d ih =>
      obtain ⟨a, b⟩ := p
      by_cases h : a == k
      · have : a = k := eq_of_beq h
        subst this
        simp [dictGet, h]
      · have hne : ¬(k = a) := fun he => by simp [he] at h
        simp [dictGet, h, ih, hne, fun he : a = k => h (by simp [he])]

theorem dictGet_isSome_iff {κ α : Type} [BEq κ] [LawfulBEq κ]
    (d : List (κ × α)) (k : κ) :
    (dictGet d k).isSome = true ↔ k ∈ d.map Prod.fst := by
  rcases h : dictGet d k with _ | v
  · simpa [h] using (dictGet_eq_none_iff d k).mp h
  · simp only [Option.isSome_some, true_iff]
    by_contra hmem
    rw [← dictGet_eq_none_iff d k] at hmem
    rw [h] at hmem
    exact Option.noConfusion hmem

theorem keys_dictSet {κ α : Type} [BEq κ] [LawfulBEq κ]
    (d : List (κ × α)) (k : κ) (v : α) :
    (dictSet d k v).map Prod.fst =
      if k ∈ d.map Prod.fst then d.map Prod.fst else d.map Prod.fst ++ [k] := by
  induction d with
  | nil => simp [dictSet]
  | cons p d ih =>
      obtain ⟨a, b⟩ := p
      by_cases h : a == k
      · have : a = k := eq_of_beq h
        subst this
        simp [dictSet, h]
      · have hne : ¬(k = a) := fun he => by simp [he] at h
        by_cases hmem : k ∈ d.map Prod.fst <;>
          simp [dictSet, h, ih, hmem, hne]

theorem nodup_dictSet {κ α : Type} [BEq κ] [LawfulBEq κ]
    (d : List (κ × α)) (k : κ) (v : α) (h : (d.map Prod.fst).Nodup) :
    ((dictSet d k v).map Prod.fst).Nodup := by
  rw [keys_dictSet]
  by_cases hmem : k ∈ d.map Prod.fst
  · simpa [hmem] using h
  · simp only [hmem, if_false, List.nodup_append]
    refine ⟨h, List.nodup_singleton k, ?_⟩
    intro a ha hak
    rw [List.mem_singleton] at hak
    subst hak
    exact hmem ha

theorem nodup_foldl_dictSet {κ α : Type} [BEq κ] [LawfulBEq κ]
    (e : List (κ × α)) (d : List (κ × α)) (h : (d.map Prod.fst).Nodup) :
    (((e.foldl (fun a p => dictSet a p.1 p.2) d)).map Prod.fst).Nodup := by
  induction e generalizing d with
  | nil => exact h
  | cons p e ih => exact ih _ (nodup_dictSet _ _ _ h)

theorem dictGet_foldl_dictSet {κ α : Type} [BEq κ] [LawfulBEq κ]
    (e : List (κ × α)) (d : List (κ × α)) (k : κ) :
    dictGet (e.foldl (fun a p => dictSet a p.1 p.2) d) k =
      optOr (dictGet e.reverse k) (dictGet d k) := by
  induction e generalizing d with
  | nil => simp [dictGet, optOr]
  | cons p e ih =>
      simp only [List.foldl_cons, List.reverse_cons]
      rw [ih, dictGet_append, dictGet_dictSet, optOr_assoc]
      by_cases h : p.1 == k <;> simp [dictGet, h, optOr]

theorem dictGet_dictUpdate {κ α : Type} [BEq κ] [LawfulBEq κ]
    (d e : List (κ × α)) (k : κ) :
    dictGet (dictUpdate d e) k = optOr (dictGet e.reverse k) (dictGet d k) :=
  dictGet_foldl_dictSet e d k

theorem dictGet_reverse_of_nodup {κ α : Type} [BEq κ] [LawfulBEq κ]
    (d : List (κ × α)) (h : (d.map Prod.fst).Nodup) (k : κ) :
    dictGet d.reverse k = dictGet d k := by
  induction d with
  | nil => rfl
  | cons p d ih =>
      obtain ⟨a, b⟩ := p
      simp only [List.map_cons, List.nodup_cons] at h
      rw [List.reverse_cons, dictGet_append]
      by_cases hak : a == k
      · have : a = k := eq_of_beq hak
        subst this
        have h1 : dictGet d a = none := (dictGet_eq_none_iff d a).mpr h.1
        have h2 : dictGet d.reverse a = none := by
          rw [dictGet_eq_none_iff]
          simpa using h.1
        simp [dictGet, hak, h2, optOr]
      · simp [dictGet, hak, ih h.2, optOr_none_right]

/-! ## Lemmas about the URL resolver -/

theorem urlResolve_keys_nodup (cfg : Config) (mapping : Mapping) (f : RefArg)
    (ext : Bool) : ((urlResolve cfg mapping f ext).map Prod.fst).Nodup :=
  nodup_foldl_dictSet _ _ (by simp)

theorem dictGet_urlResolve (cfg : Config) (mapping : Mapping) (f : RefArg)
    (ext : Bool) (k : Str) :
    dictGet (urlResolve cfg mapping f ext) k =
      dictGet (urlRawPairs cfg mapping ext f).reverse k := by
  unfold urlResolve
  rw [dictGet_foldl_dictSet]
  simp [dictGet, optOr_none_right]

theorem urlsResolve_foldl_get (cfg : Config) (mapping : Mapping)
    (paths : List RefArg) (acc : List (Str × Meta)) (k : Str) :
    dictGet (paths.foldl (fun a f => dictUpdate a (urlResolve cfg mapping f false)) acc) k =
      optOr (dictGet (paths.flatMap (urlRawPairs cfg mapping false)).reverse k)
        (dictGet acc k) := by
  induction paths generalizing acc with
  | nil => simp [dictGet, optOr]
  | cons f paths ih =>
      simp only [List.foldl_cons, List.flatMap_cons, List.reverse_append]
      rw [ih, dictGet_dictUpdate, dictGet_append, optOr_assoc]
      rw [dictGet_reverse_of_nodup _ (urlResolve_keys_nodup cfg mapping f false),
        dictGet_urlResolve]

theorem nodup_foldl_dictUpdate {κ α β : Type} [BEq κ] [LawfulBEq κ]
    (xs : List β) (g : β → List (κ × α)) (d : List (κ × α))
    (h : (d.map Prod.fst).Nodup) :
    ((xs.foldl (fun a x => dictUpdate a (g x)) d).map Prod.fst).Nodup := by
  induction xs generalizing d with
  | nil => exact h
  | cons x xs ih => exact ih _ (nodup_foldl_dictSet _ _ h)

theorem urlsResolve_keys_nodup (cfg : Config) (mapping : Mapping)
    (paths : List RefArg) : ((urlsResolve cfg mapping paths).map Prod.fst).Nodup :=
  nodup_foldl_dictUpdate paths _ [] (by simp)

/-- C1 (amended): in the combined result of `urls()` every final URL occurs
exactly once (the keys are duplicate-free), and the metadata kept for a URL
is the metadata of its **last** occurrence across the concatenated
per-reference resolutions (Python dict assignment/update overwrites values;
only the key's first-seen *position* is kept). -/
theorem c1_urls_dedup_keeps_last_seen_metadata (cfg : Config) (mapping : Mapping)
    (paths : List RefArg) (u : Str) :
    ((urlsResolve cfg mapping paths).map Prod.fst).Nodup ∧
    dictGet (urlsResolve cfg mapping paths) u =
      dictGet (paths.flatMap (urlRawPairs cfg mapping false)).reverse u := by
  refine ⟨urlsResolve_keys_nodup cfg mapping paths, ?_⟩
  unfold urlsResolve
  rw [urlsResolve_foldl_get]
  simp [dictGet, optOr_none_right]

/-- C1 (counterexample): the references `"prefetch /app.js"` and
`"import /app.js"` both resolve to the final URL `/app.js`; the combined
result of `urls()` keeps that URL once but with the metadata of the *second*
(last) occurrence, `modifier=import`, not the first-seen
`modifier=prefetch` the claim requires. -/
theorem c1_first_seen_metadata_counterexample :
    urlRawPairs sampleCfg [] false (RefArg.str (lit "prefetch /app.js")) =
      [(lit "/app.js", [(lit "modifier", MetaVal.str (lit "prefetch"))])] ∧
    urlRawPairs sampleCfg [] false (RefArg.str (lit "import /app.js")) =
      [(lit "/app.js", [(lit "modifier", MetaVal.str (lit "import"))])] ∧
    urlsResolve sampleCfg []
        [RefArg.str (lit "prefetch /app.js"), RefArg.str (lit "import /app.js")] =
      [(lit "/app.js", [(lit "modifier", MetaVal.str (lit "import"))])] ∧
    ([(lit "modifier", MetaVal.str (lit "import"))] : Meta) ≠
      [(lit "modifier", MetaVal.str (lit "prefetch"))] := by
  refine ⟨?_, ?_, ?_, ?_⟩ <;> decide

/-- C5 (amended): the URL resolver never excludes hint-only Outputs — every
Output of a reference's resolution (whatever its modifier, including
`prefetch`, `preload` and `modulepreload`) contributes its processed final
URL to the resolver's result; no caller option to request or suppress hints
exists. -/
theorem c5_hints_always_retained (cfg : Config) (mapping : Mapping) (f : RefArg)
    (ext : Bool) (o : Output)
    (h : o ∈ resolveAssetFilenameToUrl mapping (parseRef f).1) :
    (processUrl cfg ext (parseRef f).2 o).1 ∈
      (urlResolve cfg mapping f ext).map Prod.fst := by
  have hmemRaw : processUrl cfg ext (parseRef f).2 o ∈ urlRawPairs cfg mapping ext f :=
    List.mem_map_of_mem _ h
  have hkey : (processUrl cfg ext (parseRef f).2 o).1 ∈
      ((urlRawPairs cfg mapping ext f).reverse.map Prod.fst) := by
    rw [List.map_reverse, List.mem_reverse]
    exact List.mem_map_of_mem Prod.fst hmemRaw
  have hsome : (dictGet (urlResolve cfg mapping f ext)
      (processUrl cfg ext (parseRef f).2 o).1).isSome = true := by
    rw [dictGet_urlResolve]
    exact (dictGet_isSome_iff _ _).mpr hkey
  exact (dictGet_isSome_iff _ _).mp hsome

/-- C5 (witness): `c5_hints_always_retained` at the concrete hint reference
`"prefetch /app.js"` with the empty mapping. -/
theorem c5_hints_always_retained_witness :
    (processUrl sampleCfg false
        (parseRef (RefArg.str (lit "prefetch /app.js"))).2
        (Output.bare (lit "/app.js"))).1 ∈
      (urlResolve sampleCfg [] (RefArg.str (lit "prefetch /app.js")) false).map
        Prod.fst :=
  c5_hints_always_retained sampleCfg [] (RefArg.str (lit "prefetch /app.js"))
    false (Output.bare (lit "/app.js")) (by decide)

/-- C5 (counterexample): resolving the hint-only reference
`"prefetch /app.js"` (no caller requested hints — no such request exists in
the interface) yields a result that *contains* the hint Output, refuting the
claim that hint-only Outputs are excluded unless hints are requested. -/
theorem c5_hint_exclusion_counterexample :
    urlResolve sampleCfg [] (RefArg.str (lit "prefetch /app.js")) false =
      [(lit "/app.js", [(lit "modifier", MetaVal.str (lit "prefetch"))])] ∧
    dictGet [(lit "modifier", MetaVal.str (lit "prefetch"))] (lit "modifier") =
      some (MetaVal.str (lit "prefetch")) := by
  refine ⟨?_, ?_⟩ <;> decide

/-! ## Lemmas about the stable priority sort -/

theorem mem_insertDesc (x y : Int × Str) (l : List (Int × Str)) :
    y ∈ insertDesc x l ↔ y = x ∨ y ∈ l := by
  induction l with
  | nil => simp [insertDesc]
  | cons z l ih =>
      by_cases h : x.1 < z.1
      · simp only [insertDesc, if_pos h, List.mem_cons, ih]
        tauto
      · simp only [insertDesc, if_neg h, List.mem_cons]

theorem pairwise_insertDesc (x : Int × Str) (l : List (Int × Str))
    (h : List.Pairwise (fun a b : Int × Str => b.1 ≤ a.1) l) :
    List.Pairwise (fun a b : Int × Str => b.1 ≤ a.1) (insertDesc x l) := by
  induction l with
  | nil => simp [insertDesc]
  | cons z l ih =>
      rcases List.pairwise_cons.mp h with ⟨hz, hl⟩
      by_cases hlt : x.1 < z.1
      · rw [insertDesc, if_pos hlt]
        refine List.pairwise_cons.mpr ⟨?_, ih hl⟩
        intro y hy
        rcases (mem_insertDesc x y l).mp hy with rfl | hy
        · exact le_of_lt hlt
        · exact hz y hy
      · rw [insertDesc, if_neg hlt]
        refine List.pairwise_cons.mpr ⟨?_, h⟩
        intro y hy
        rcases List.mem_cons.mp hy with rfl | hy
        · exact le_of_not_lt hlt
        · exact le_trans (hz y hy) (le_of_not_lt hlt)

theorem sorted_insertionSortDesc (l : List (Int × Str)) :
    List.Pairwise (fun a b : Int × Str => b.1 ≤ a.1) (insertionSortDesc l) := by
  induction l with
  | nil => simp [insertionSortDesc]
  | cons x l ih => exact pairwise_insertDesc x _ ih

theorem filter_insertDesc (x : Int × Str) (l : List (Int × Str)) (p : Int) :
    (insertDesc x l).filter (fun y => y.1 == p) =
      if x.1 == p then x :: l.filter (fun y => y.1 == p)
      else l.filter (fun y => y.1 == p) := by
  induction l with
  | nil => by_cases h : x.1 == p <;> simp [insertDesc, List.filter, h]
  | cons z l ih =>
      by_cases hlt : x.1 < z.1
      · rw [insertDesc, if_pos hlt]
        by_cases hzp : z.1 == p
        · have hz : z.1 = p := eq_of_beq hzp
          have hxp : (x.1 == p) = false := by
            rcases h : x.1 == p with _ | _
            · rfl
            · exact absurd hlt (by rw [eq_of_beq h, ← hz] at *; exact lt_irrefl z.1)
          simp [List.filter_cons, hzp, ih, hxp]
        · simp [List.filter_cons, hzp, ih]
      · rw [insertDesc, if_neg hlt]
        by_cases hxp : x.1 == p <;> simp [List.filter_cons, hxp]

theorem filter_insertionSortDesc (l : List (Int × Str)) (p : Int) :
    (insertionSortDesc l).filter (fun y => y.1 == p) =
      l.filter (fun y => y.1 == p) := by
  induction l with
  | nil => rfl
  | cons x l ih =>
      rw [insertionSortDesc, filter_insertDesc]
      by_cases hxp : x.1 == p <;> simp [List.filter_cons, hxp, ih]

/-- C7: the render order of `urls()` sorts the inclusion list by descending
priority; the sort is stable (for every priority, the subsequence of entries
with that priority is exactly the insertion-order subsequence); and on the
concrete inclusions `[(1,"a"),(3,"b"),(1,"c")]` the render order is
`b, a, c`. -/
theorem c7_priority_order_stable_sort (l : List (Int × Str)) :
    List.Pairwise (fun a b : Int × Str => b.1 ≤ a.1) (insertionSortDesc l) ∧
    (∀ p : Int, (insertionSortDesc l).filter (fun y => y.1 == p) =
      l.filter (fun y => y.1 == p)) ∧
    renderOrderPaths [(1, lit "a"), (3, lit "b"), (1, lit "c")] =
      [lit "b", lit "a", lit "c"] :=
  ⟨sorted_insertionSortDesc l, filter_insertionSortDesc l, by decide⟩

/-- C10: `read_mapping` maps every failed read (missing file, unreadable
file, invalid JSON — the source catches every `Exception`) to the empty
mapping, and with the empty mapping every reference resolves to the
identity-passthrough single Output. -/
theorem c10_read_mapping_degrades_to_passthrough :
    readMapping none = [] ∧
    ∀ f : Str, resolveAssetFilenameToUrl (readMapping none) f = [Output.bare f] :=
  ⟨rfl, fun _ => rfl⟩

/-- C4: when the build-graph document fails to decode (`json.JSONDecodeError`,
modelled as `none`), the conversion-and-write operation reports failure and
the previously persisted mapping is returned unchanged; on a successful
decode it reports success and writes the converted mapping. -/
theorem c4_decode_failure_leaves_mapping_unchanged (cfg : ConvertCfg)
    (prev : Mapping) :
    writeMappingFromMetafile none cfg prev = (false, prev) ∧
    ∀ outputs, writeMappingFromMetafile (some outputs) cfg prev =
      (true, convertEsbuildMapping cfg outputs) :=
  ⟨rfl, fun _ => rfl⟩

/-! ## Lemmas about the manifest converter -/

theorem dictGet_dictAppend {κ α : Type} [BEq κ] [LawfulBEq κ]
    (d : List (κ × List α)) (k k' : κ) (xs : List α) :
    dictGet (dictAppend d k xs) k' =
      if k == k' then some ((dictGet d k').getD [] ++ xs) else dictGet d k' := by
  induction d with
  | nil => simp [dictGet, dictAppend]
  | cons p d ih =>
      obtain ⟨a, b⟩ := p
      by_cases hak : a == k
      · have : a = k := eq_of_beq hak
        subst this
        by_cases hkk : a == k' <;> simp [dictGet, dictAppend, hak, hkk]
      · by_cases hak' : a == k'
        · have : a = k' := eq_of_beq hak'
          subst this
          have hkk : (k == a) = false := by
            rcases h : k == a with _ | _
            · rfl
            · exact absurd (by rw [eq_of_beq h] at hak; exact hak) (by simp)
          simp [dictGet, dictAppend, hak, hak', hkk]
        · simp [dictGet, dictAppend, hak, hak', ih]

theorem keyContribs_cons_none (cfg : ConvertCfg) (k : Str)
    (rec : Str × OutputInfo) (outputs : List (Str × OutputInfo))
    (hep : rec.2.entryPoint = none) :
    keyContribs cfg k (rec :: outputs) = keyContribs cfg k outputs := by
  simp [keyContribs, List.filterMap_cons, hep]

theorem keyContribs_cons_some (cfg : ConvertCfg) (k : Str)
    (rec : Str × OutputInfo) (outputs : List (Str × OutputInfo)) (ep : Str)
    (hep : rec.2.entryPoint = some ep) :
    keyContribs cfg k (rec :: outputs) =
      (if entryKey cfg ep == k then
        entryOutputs cfg rec.1 rec.2 :: keyContribs cfg k outputs
       else keyContribs cfg k outputs) := by
  by_cases hk : entryKey cfg ep = k
  · simp [keyContribs, List.filterMap_cons, hep, hk]
  · simp [keyContribs, List.filterMap_cons, hep, hk]

/-- What the converter's fold computes at each key: the flattened in-order
concatenation of the per-record contributions, appended to whatever the
starting mapping already held there. -/
theorem convert_fold_get (cfg : ConvertCfg) (outputs : List (Str × OutputInfo))
    (mapping : Mapping) (k : Str) :
    dictGet (outputs.foldl (convertStep cfg) mapping) k =
      (if (keyContribs cfg k outputs).isEmpty then dictGet mapping k
       else some ((dictGet mapping k).getD [] ++ (keyContribs cfg k outputs).flatten)) := by
  induction outputs generalizing mapping with
  | nil => simp [keyContribs]
  | cons rec outputs ih =>
      rcases hep : rec.2.entryPoint with _ | ep
      · rw [keyContribs_cons_none cfg k rec outputs hep]
        simp only [List.foldl_cons, convertStep, hep]
        exact ih mapping
      · by_cases hk : (entryKey cfg ep == k) = true
        · rw [keyContribs_cons_some cfg k rec outputs ep hep, if_pos hk]
          simp only [List.foldl_cons, convertStep, hep, List.isEmpty_cons,
            Bool.false_eq_true, if_false, List.flatten_cons]
          rw [ih, dictGet_dictAppend, if_pos hk]
          rcases htail : (keyContribs cfg k outputs).isEmpty with _ | _
          · simp [List.append_assoc]
          · have hnil : keyContribs cfg k outputs = [] := by
              cases h : keyContribs cfg k outputs with
              | nil => rfl
              | cons a l => rw [h] at htail; simp at htail
            simp [hnil]
        · have hkf : (entryKey cfg ep == k) = false := by simpa using hk
          rw [keyContribs_cons_some cfg k rec outputs ep hep]
          simp only [hkf, Bool.false_eq_true, if_false]
          simp only [List.foldl_cons, convertStep, hep]
          rw [ih]
          have hget : dictGet (dictAppend mapping (entryKey cfg ep)
              (entryOutputs cfg rec.1 rec.2)) k = dictGet mapping k := by
            rw [dictGet_dictAppend]
            simp only [hkf, Bool.false_eq_true, if_false]
          rw [hget]

/-- C2: for every build-graph document, each output record with an
`entryPoint` appends to that entrypoint's mapping key, in order: the
rewritten output URL (tagged `modifier=import` exactly when it ends in
`.js`), then the rewritten `cssBundle` URL (untagged) when present, then one
`modulepreload`-tagged Output per import of kind `import-statement` (any
other kind produces nothing); records without an `entryPoint` contribute
nothing; and the mapping value at a key is the in-order concatenation of
these contributions.  The spec's synthetic round-trip example evaluates as
required. -/
theorem c2_converter_appends_in_order (cfg : ConvertCfg)
    (outputs : List (Str × OutputInfo)) (k : Str) :
    (∀ name info, entryOutputs cfg name info =
      [if (lit ".js").isSuffixOf (rewriteUrl cfg name) then
          Output.withMeta (rewriteUrl cfg name) [(lit "modifier", MetaVal.str (lit "import"))]
       else Output.bare (rewriteUrl cfg name)] ++
      (match info.cssBundle with
       | some css => [Output.bare (rewriteUrl cfg css)]
       | none => []) ++
      info.imports.filterMap (fun i =>
        if i.kind == lit "import-statement" then
          some (Output.withMeta (rewriteUrl cfg i.path)
            [(lit "modifier", MetaVal.str (lit "modulepreload"))])
        else none)) ∧
    (∀ mapping rec, rec.2.entryPoint = none →
      convertStep cfg mapping rec = mapping) ∧
    dictGet (convertEsbuildMapping cfg outputs) k =
      (if (keyContribs cfg k outputs).isEmpty then none
       else some (keyContribs cfg k outputs).flatten) ∧
    convertEsbuildMapping sampleConvertCfg sampleMetafileOutputs =
      [(lit "app.js",
        [Output.withMeta (lit "/static/dist/app-ABC123.js")
           [(lit "modifier", MetaVal.str (lit "import"))],
         Output.bare (lit "/static/dist/app-ABC123.css"),
         Output.withMeta (lit "/static/dist/chunk-XYZ.js")
           [(lit "modifier", MetaVal.str (lit "modulepreload"))]])] := by
  refine ⟨fun name info => rfl, fun mapping rec h => ?_, ?_, by decide⟩
  · simp [convertStep, h]
  · have h := convert_fold_get cfg outputs [] k
    simpa [convertEsbuildMapping, dictGet] using h

/-- C2 (witness): `c2_converter_appends_in_order` instantiated at the spec's
synthetic example, key `app.js`. -/
theorem c2_converter_appends_in_order_witness :
    convertStep sampleConvertCfg []
        (lit "dist/chunk-XYZ.js",
          { entryPoint := none, cssBundle := none, imports := [] }) = [] :=
  (c2_converter_appends_in_order sampleConvertCfg sampleMetafileOutputs
    (lit "app.js")).2.1 []
    (lit "dist/chunk-XYZ.js", { entryPoint := none, cssBundle := none, imports := [] })
    rfl

theorem foldl_filter_of_id {α β : Type} (f : α → β → α) (p : β → Bool)
    (l : List β) (h : ∀ a b, p b = false → f a b = a) (a : α) :
    l.foldl f a = (l.filter p).foldl f a := by
  induction l generalizing a with
  | nil => rfl
  | cons b l ih =>
      rcases hb : p b with _ | _
      · rw [List.foldl_cons, List.filter_cons, hb, h a b hb]
        exact ih a
      · rw [List.foldl_cons, List.filter_cons, hb]
        simp only [if_true]
        rw [List.foldl_cons]
        exact ih (f a b)

/-- C3: an output record whose `entryPoint` is absent, or whose resolved
absolute entry path is not a declared (tracked) Entrypoint, contributes
nothing to `EsbuildBuilder.convert_metafile`: processing it leaves the
`(inputs, mapping)` accumulator unchanged, and over a whole document the
result equals the result on the document restricted to resolvable
records. -/
theorem c3_unresolved_entrypoints_ignored (cfg : ConvertCfg)
    (entrypoints : List (Str × Entrypoint)) (outputs : List (Str × OutputInfo))
    (acc : List Str × Mapping) (rec : Str × OutputInfo) :
    (rec.2.entryPoint = none → convertStepB cfg entrypoints acc rec = acc) ∧
    (∀ ep, rec.2.entryPoint = some ep →
      dictGet entrypoints (cfg.abspath ep) = none →
      convertStepB cfg entrypoints acc rec = acc) ∧
    convertMetafileB cfg entrypoints outputs =
      convertMetafileB cfg entrypoints
        (outputs.filter (fun r =>
          match r.2.entryPoint with
          | none => false
          | some ep => dictMem entrypoints (cfg.abspath ep))) := by
  refine ⟨?_, ?_, ?_⟩
  · intro h
    simp [convertStepB, h]
  · intro ep hep hget
    simp [convertStepB, hep, hget]
  · unfold convertMetafileB
    apply foldl_filter_of_id
    intro a r hr
    rcases hep : r.2.entryPoint with _ | ep
    · simp [convertStepB, hep]
    · rw [hep] at hr
      simp only [dictMem] at hr
      have hget : dictGet entrypoints (cfg.abspath ep) = none := by
        rcases h : dictGet entrypoints (cfg.abspath ep) with _ | v
        · rfl
        · rw [h] at hr; simp at hr
      simp [convertStepB, hep, hget]

/-- C3 (witness): `c3_unresolved_entrypoints_ignored` applied to a record
whose `entryPoint` resolves outside the declared entrypoint index. -/
theorem c3_unresolved_entrypoints_ignored_witness :
    convertStepB sampleConvertCfg
        [(lit "/abs/assets/app.js",
          { filename := lit "app.js", path := lit "app.js", is_abs := false })]
        ([], [])
        (lit "dist/internal-chunk.js",
          { entryPoint := some (lit "assets/internal.js"), cssBundle := none,
            imports := [] }) = ([], []) :=
  (c3_unresolved_entrypoints_ignored sampleConvertCfg
      [(lit "/abs/assets/app.js",
        { filename := lit "app.js", path := lit "app.js", is_abs := false })]
      [] ([], [])
      (lit "dist/internal-chunk.js",
        { entryPoint := some (lit "assets/internal.js"), cssBundle := none,
          imports := [] })).2.1
    (lit "assets/internal.js") rfl (by decide)

/-! ## Lemmas about the reference grammar parser -/

theorem isPrefixOf_append_submatch (x l p : Str) :
    x.isPrefixOf (l ++ p) =
      ((x.take l.length == l.take x.length) && (x.drop l.length).isPrefixOf p) := by
  induction x generalizing l with
  | nil => simp [List.isPrefixOf]
  | cons a x ih =>
      cases l with
      | nil => simp [List.isPrefixOf]
      | cons b l =>
          simp only [List.cons_append, List.isPrefixOf, List.length_cons,
            List.take_succ_cons, List.drop_succ_cons, List.cons_beq_cons]
          rcases hab : a == b with _ | _
          · simp [hab]
          · simp only [hab, Bool.true_and]
            exact ih l

theorem isPrefixOf_append_false (x l p : Str)
    (h : (x.take l.length == l.take x.length) = false) :
    x.isPrefixOf (l ++ p) = false := by
  rw [isPrefixOf_append_submatch, h, Bool.false_and]

theorem isPrefixOf_append_true (x l p : Str)
    (h1 : (x.take l.length == l.take x.length) = true) (h2 : x.drop l.length = []) :
    x.isPrefixOf (l ++ p) = true := by
  rw [isPrefixOf_append_submatch, h1, h2]
  simp [List.isPrefixOf]

theorem isPrefixOf_append_self (l p : Str) : l.isPrefixOf (l ++ p) = true := by
  apply isPrefixOf_append_true
  · simp
  · simp

theorem drop_append_of_length (l p : Str) (n : Nat) (h : l.length = n) :
    (l ++ p).drop n = p := by
  subst h
  exact List.drop_left l p

theorem takeWhile_append_of_all (pr : Char → Bool) (l₁ l₂ : Str)
    (h : ∀ c ∈ l₁, pr c = true) :
    (l₁ ++ l₂).takeWhile pr = l₁ ++ l₂.takeWhile pr := by
  induction l₁ with
  | nil => simp
  | cons a l ih =>
      have ha : pr a = true := h a (List.mem_cons_self a l)
      simp only [List.cons_append, List.takeWhile_cons, ha, if_true]
      rw [ih (fun c hc => h c (List.mem_cons_of_mem a hc))]

theorem splitOnceChar_eq_none_iff (s : Str) (c : Char) :
    splitOnceChar s c = none ↔ c ∉ s := by
  induction s with
  | nil => simp [splitOnceChar]
  | cons a s ih =>
      by_cases hac : a == c
      · have : a = c := eq_of_beq hac
        subst this
        simp [splitOnceChar, hac]
      · have hne : ¬(c = a) := fun he => by
          rw [he] at hac; exact hac (by simp)
        simp [splitOnceChar, hac, ih, hne]

theorem parseFragment_no_hash (f : Str) (m : Meta) (h : '#' ∉ f) :
    parseFragment f m = (f, m) := by
  have hs : splitOnceChar f '#' = none := (splitOnceChar_eq_none_iff f '#').mpr h
  simp [parseFragment, hs]

theorem not_mem_drop_of_not_mem (a : Char) (l : Str) (n : Nat) (h : a ∉ l) :
    a ∉ l.drop n :=
  fun hm => h (List.mem_of_mem_drop hm)

theorem dictGet_mem_values {κ α : Type} [BEq κ] (d : List (κ × α)) (k : κ) (v : α)
    (h : dictGet d k = some v) : v ∈ d.map Prod.snd := by
  induction d with
  | nil => simp [dictGet] at h
  | cons p d ih =>
      obtain ⟨a, b⟩ := p
      by_cases hak : a == k
      · simp only [dictGet, hak, if_true, Option.some.injEq] at h
        subst h
        exact List.mem_cons_self _ _
      · simp only [dictGet, hak, Bool.false_eq_true, if_false] at h
        exact List.mem_cons_of_mem _ (ih h)

theorem preloadContentType_lower (f : Str) :
    preloadContentType f ≠ [] ∧ ∀ c ∈ preloadContentType f, isLowerAlpha c = true := by
  unfold preloadContentType
  rcases h : dictGet preloadAsExtMapping (lastExtOf f) with _ | v
  · exact ⟨by decide, by decide⟩
  · have hv : v ∈ preloadAsExtMapping.map Prod.snd := dictGet_mem_values _ _ _ h
    have hall : ∀ w ∈ preloadAsExtMapping.map Prod.snd,
        w ≠ [] ∧ ∀ c ∈ w, isLowerAlpha c = true := by decide
    simpa using hall v hv

theorem matchModifier_serial_static (p : Str) :
    matchModifier (lit "static " ++ p) = some (lit "static", p) := by
  have c1 : (lit "static ").isPrefixOf (lit "static " ++ p) = true :=
    isPrefixOf_append_self _ _
  have d1 : (lit "static " ++ p).drop 7 = p := drop_append_of_length _ _ _ (by decide)
  simp [matchModifier, c1, d1]

theorem matchModifier_serial_import (p : Str) :
    matchModifier (lit "import " ++ p) = some (lit "import", p) := by
  have c1 : (lit "static ").isPrefixOf (lit "import " ++ p) = false :=
    isPrefixOf_append_false _ _ _ (by decide)
  have c2 : (lit "import ").isPrefixOf (lit "import " ++ p) = true :=
    isPrefixOf_append_self _ _
  have d1 : (lit "import " ++ p).drop 7 = p := drop_append_of_length _ _ _ (by decide)
  simp [matchModifier, c1, c2, d1]

theorem matchModifier_serial_prefetch (p : Str) :
    matchModifier (lit "prefetch " ++ p) = some (lit "prefetch", p) := by
  have c1 : (lit "static ").isPrefixOf (lit "prefetch " ++ p) = false :=
    isPrefixOf_append_false _ _ _ (by decide)
  have c2 : (lit "import ").isPrefixOf (lit "prefetch " ++ p) = false :=
    isPrefixOf_append_false _ _ _ (by decide)
  have c3 : (lit "prefetch ").isPrefixOf (lit "prefetch " ++ p) = true :=
    isPrefixOf_append_self _ _
  have d1 : (lit "prefetch " ++ p).drop 9 = p := drop_append_of_length _ _ _ (by decide)
  simp [matchModifier, c1, c2, c3, d1]

theorem matchModifier_serial_modulepreload (p : Str) :
    matchModifier (lit "modulepreload " ++ p) = some (lit "modulepreload", p) := by
  have c1 : (lit "static ").isPrefixOf (lit "modulepreload " ++ p) = false :=
    isPrefixOf_append_false _ _ _ (by decide)
  have c2 : (lit "import ").isPrefixOf (lit "modulepreload " ++ p) = false :=
    isPrefixOf_append_false _ _ _ (by decide)
  have c3 : (lit "prefetch ").isPrefixOf (lit "modulepreload " ++ p) = false :=
    isPrefixOf_append_false _ _ _ (by decide)
  have c4 : (lit "modulepreload ").isPrefixOf (lit "modulepreload " ++ p) = true :=
    isPrefixOf_append_self _ _
  have d1 : (lit "modulepreload " ++ p).drop 14 = p :=
    drop_append_of_length _ _ _ (by decide)
  simp [matchModifier, c1, c2, c3, c4, d1]

theorem matchModifier_serial_preload_as (ct p : Str) (h1 : ct ≠ [])
    (h2 : ∀ c ∈ ct, isLowerAlpha c = true) :
    matchModifier (lit "preload as " ++ (ct ++ (lit " " ++ p))) =
      some (lit "preload as " ++ ct, p) := by
  have c1 : (lit "static ").isPrefixOf (lit "preload as " ++ (ct ++ (lit " " ++ p))) = false :=
    isPrefixOf_append_false _ _ _ (by decide)
  have c2 : (lit "import ").isPrefixOf (lit "preload as " ++ (ct ++ (lit " " ++ p))) = false :=
    isPrefixOf_append_false _ _ _ (by decide)
  have c3 : (lit "prefetch ").isPrefixOf (lit "preload as " ++ (ct ++ (lit " " ++ p))) = false :=
    isPrefixOf_append_false _ _ _ (by decide)
  have c4 : (lit "modulepreload ").isPrefixOf (lit "preload as " ++ (ct ++ (lit " " ++ p))) = false :=
    isPrefixOf_append_false _ _ _ (by decide)
  have c5 : (lit "preload").isPrefixOf (lit "preload as " ++ (ct ++ (lit " " ++ p))) = true :=
    isPrefixOf_append_true _ _ _ (by decide) (by decide)
  have ht : (lit "preload as " ++ (ct ++ (lit " " ++ p))).drop 7 =
      lit " as " ++ (ct ++ (lit " " ++ p)) := by
    rw [List.drop_append_eq_append_drop]
    have e1 : (lit "preload as ").drop 7 = lit " as " := by decide
    have e2 : 7 - (lit "preload as ").length = 0 := by decide
    rw [e1, e2, List.drop_zero]
  have c6 : (lit " as ").isPrefixOf (lit " as " ++ (ct ++ (lit " " ++ p))) = true :=
    isPrefixOf_append_self _ _
  have hu : (lit " as " ++ (ct ++ (lit " " ++ p))).drop 4 = ct ++ (lit " " ++ p) :=
    drop_append_of_length _ _ _ (by decide)
  have hw : (ct ++ (lit " " ++ p)).takeWhile isLowerAlpha = ct := by
    rw [takeWhile_append_of_all isLowerAlpha ct _ h2]
    have : (lit " " ++ p).takeWhile isLowerAlpha = [] := by
      show ((' ' :: p).takeWhile isLowerAlpha) = []
      simp [List.takeWhile_cons, isLowerAlpha]
    rw [this, List.append_nil]
  have hdrop : (ct ++ (lit " " ++ p)).drop ct.length = lit " " ++ p :=
    List.drop_left ct _
  have hhead : (lit " " ++ p).head? = some ' ' := rfl
  have hlast : (lit " " ++ p).drop 1 = p := rfl
  simp only [matchModifier, c1, c2, c3, c4, c5, Bool.false_eq_true, if_false,
    if_true, ht, c6, hu, hw, hdrop, hhead, hlast]
  simp [h1]

theorem refMeta_plain (m r : Str)
    (e1 : (lit "preload as ").isPrefixOf m = false)
    (e2 : (m == lit "preload") = false) :
    refMeta m r = [(lit "modifier", MetaVal.str m)] := by
  simp [refMeta, e1, e2]

theorem parseRefStr_of_match (s m rest : Str)
    (hm0 : matchModifier s = some (m, rest)) (hh : '#' ∉ rest) :
    parseRefStr s = (rest, refMeta m rest) := by
  unfold parseRefStr
  rw [hm0]
  show parseFragment rest (refMeta m rest) = (rest, refMeta m rest)
  exact parseFragment_no_hash rest _ hh

theorem reparse_roundtrip_plain (m rest : Str) (hh : '#' ∉ rest)
    (hrm : refMeta m rest = [(lit "modifier", MetaVal.str m)])
    (hmm : matchModifier (m ++ (lit " " ++ rest)) = some (m, rest))
    (hne : (m == lit "preload") = false) :
    parseRefStr (serializeRef rest (refMeta m rest)) = (rest, refMeta m rest) := by
  rw [hrm]
  have hser : serializeRef rest [(lit "modifier", MetaVal.str m)] =
      m ++ (lit " " ++ rest) := by
    simp [serializeRef, dictGet, hne, List.append_assoc]
  rw [hser]
  unfold parseRefStr
  rw [hmm]
  show parseFragment rest (refMeta m rest) = (rest, [(lit "modifier", MetaVal.str m)])
  rw [hrm]
  exact parseFragment_no_hash rest _ hh

theorem reparse_roundtrip_preload (rest : Str) (hh : '#' ∉ rest) :
    parseRefStr (serializeRef rest (refMeta (lit "preload") rest)) =
      (rest, refMeta (lit "preload") rest) := by
  have e1 : ((lit "preload as ").isPrefixOf (lit "preload")) = false := by decide
  have hrm : refMeta (lit "preload") rest =
      [(lit "modifier", MetaVal.str (lit "preload")),
       (lit "content_type", MetaVal.str (preloadContentType rest))] := by
    simp [refMeta, e1]
  rw [hrm]
  have hser : serializeRef rest
      [(lit "modifier", MetaVal.str (lit "preload")),
       (lit "content_type", MetaVal.str (preloadContentType rest))] =
      lit "preload as " ++ (preloadContentType rest ++ (lit " " ++ rest)) := by
    have e2 : ¬(lit "modifier" = lit "content_type") := by decide
    simp [serializeRef, dictGet, e2, List.append_assoc]
  rw [hser]
  have hpl := preloadContentType_lower rest
  have hmm := matchModifier_serial_preload_as (preloadContentType rest) rest
    hpl.1 hpl.2
  unfold parseRefStr
  rw [hmm]
  show parseFragment rest (refMeta (lit "preload as " ++ preloadContentType rest) rest) =
    (rest, [(lit "modifier", MetaVal.str (lit "preload")),
            (lit "content_type", MetaVal.str (preloadContentType rest))])
  have hrm2 : refMeta (lit "preload as " ++ preloadContentType rest) rest =
      [(lit "modifier", MetaVal.str (lit "preload")),
       (lit "content_type", MetaVal.str (preloadContentType rest))] := by
    have hp : ((lit "preload as ").isPrefixOf
        (lit "preload as " ++ preloadContentType rest)) = true :=
      isPrefixOf_append_self _ _
    have hd : (lit "preload as " ++ preloadContentType rest).drop 11 =
        preloadContentType rest := drop_append_of_length _ _ _ (by decide)
    simp [refMeta, hp, hd]
  rw [hrm2]
  exact parseFragment_no_hash rest _ hh

theorem reparse_roundtrip_preload_as (w rest : Str) (hh : '#' ∉ rest)
    (h1 : w ≠ []) (h2 : ∀ c ∈ w, isLowerAlpha c = true) :
    parseRefStr (serializeRef rest (refMeta (lit "preload as " ++ w) rest)) =
      (rest, refMeta (lit "preload as " ++ w) rest) := by
  have hp : ((lit "preload as ").isPrefixOf (lit "preload as " ++ w)) = true :=
    isPrefixOf_append_self _ _
  have hd : (lit "preload as " ++ w).drop 11 = w :=
    drop_append_of_length _ _ _ (by decide)
  have hrm : refMeta (lit "preload as " ++ w) rest =
      [(lit "modifier", MetaVal.str (lit "preload")),
       (lit "content_type", MetaVal.str w)] := by
    simp [refMeta, hp, hd]
  rw [hrm]
  have hser : serializeRef rest
      [(lit "modifier", MetaVal.str (lit "preload")),
       (lit "content_type", MetaVal.str w)] =
      lit "preload as " ++ (w ++ (lit " " ++ rest)) := by
    have e2 : ¬(lit "modifier" = lit "content_type") := by decide
    simp [serializeRef, dictGet, e2, List.append_assoc]
  rw [hser]
  have hmm := matchModifier_serial_preload_as w rest h1 h2
  unfold parseRefStr
  rw [hmm]
  show parseFragment rest (refMeta (lit "preload as " ++ w) rest) =
    (rest, [(lit "modifier", MetaVal.str (lit "preload")),
            (lit "content_type", MetaVal.str w)])
  rw [hrm]
  exact parseFragment_no_hash rest _ hh

/-- C8 (amended): the reference parser is total by construction; a string
matching no modifier prefix **and containing no `#`** parses to the whole
string with empty metadata; and for every `#`-free string, re-serializing
the parsed `(path, metadata)` pair through the modifier vocabulary and
re-parsing yields an equal result.  (Strings with a `#` fragment violate
both parts as stated in the claim: the fragment is split off the path and
its query pairs land in the metadata, which the modifier vocabulary cannot
re-serialize.) -/
theorem c8_parser_total_idempotent_fragment_free (s : Str) :
    (matchModifier s = none → '#' ∉ s → parseRefStr s = (s, [])) ∧
    ('#' ∉ s →
      parseRefStr (serializeRef (parseRefStr s).1 (parseRefStr s).2) =
        parseRefStr s) := by
  constructor
  · intro hm hh
    unfold parseRefStr
    rw [hm]
    exact parseFragment_no_hash s [] hh
  · intro hh
    rcases hm : matchModifier s with _ | mr
    · have hps : parseRefStr s = (s, []) := by
        unfold parseRefStr
        rw [hm]
        exact parseFragment_no_hash s [] hh
      rw [hps]
      have hser : serializeRef s [] = s := rfl
      rw [hser]
      exact hps
    · obtain ⟨m, rest⟩ := mr
      have hm0 := hm
      unfold matchModifier at hm
      split_ifs at hm with h1 h2 h3 h4 h5
      · rw [Option.some.injEq, Prod.mk.injEq] at hm
        obtain ⟨hma, hmb⟩ := hm
        subst hma; subst hmb
        have hhr : '#' ∉ s.drop 7 := not_mem_drop_of_not_mem _ _ _ hh
        rw [parseRefStr_of_match s _ _ hm0 hhr]
        exact reparse_roundtrip_plain (lit "static") (s.drop 7) hhr
          (refMeta_plain _ _ (by decide) (by decide))
          (matchModifier_serial_static _) (by decide)
      · rw [Option.some.injEq, Prod.mk.injEq] at hm
        obtain ⟨hma, hmb⟩ := hm
        subst hma; subst hmb
        have hhr : '#' ∉ s.drop 7 := not_mem_drop_of_not_mem _ _ _ hh
        rw [parseRefStr_of_match s _ _ hm0 hhr]
        exact reparse_roundtrip_plain (lit "import") (s.drop 7) hhr
          (refMeta_plain _ _ (by decide) (by decide))
          (matchModifier_serial_import _) (by decide)
      · rw [Option.some.injEq, Prod.mk.injEq] at hm
        obtain ⟨hma, hmb⟩ := hm
        subst hma; subst hmb
        have hhr : '#' ∉ s.drop 9 := not_mem_drop_of_not_mem _ _ _ hh
        rw [parseRefStr_of_match s _ _ hm0 hhr]
        exact reparse_roundtrip_plain (lit "prefetch") (s.drop 9) hhr
          (refMeta_plain _ _ (by decide) (by decide))
          (matchModifier_serial_prefetch _) (by decide)
      · rw [Option.some.injEq, Prod.mk.injEq] at hm
        obtain ⟨hma, hmb⟩ := hm
        subst hma; subst hmb
        have hhr : '#' ∉ s.drop 14 := not_mem_drop_of_not_mem _ _ _ hh
        rw [parseRefStr_of_match s _ _ hm0 hhr]
        exact reparse_roundtrip_plain (lit "modulepreload") (s.drop 14) hhr
          (refMeta_plain _ _ (by decide) (by decide))
          (matchModifier_serial_modulepreload _) (by decide)
      · simp only [] at hm
        split_ifs at hm with h6 h7 h8 h9
        all_goals (
          rw [Option.some.injEq, Prod.mk.injEq] at hm;
          obtain ⟨hma, hmb⟩ := hm;
          subst hma; subst hmb;
          rw [parseRefStr_of_match s _ _ hm0
            (by (repeat apply not_mem_drop_of_not_mem); exact hh)];
          first
          | exact reparse_roundtrip_preload _
              (by (repeat apply not_mem_drop_of_not_mem); exact hh)
          | exact reparse_roundtrip_preload_as _ _
              (by (repeat apply not_mem_drop_of_not_mem); exact hh) h7.1
              (fun c hc => List.mem_takeWhile_imp hc))

/-- C8 (witness): `c8_parser_total_idempotent_fragment_free` at the concrete
modifier reference `"preload icon.woff2"` (fragment-free, with a modifier). -/
theorem c8_parser_total_idempotent_fragment_free_witness :
    parseRefStr (serializeRef (parseRefStr (lit "preload icon.woff2")).1
        (parseRefStr (lit "preload icon.woff2")).2) =
      parseRefStr (lit "preload icon.woff2") :=
  (c8_parser_total_idempotent_fragment_free (lit "preload icon.woff2")).2
    (by decide)

/-- C8 (counterexample): on `"a.js#x=1"` — which matches no modifier prefix —
the parser does *not* return the whole string with empty metadata (the
fragment is split off and parsed into the metadata), and re-serializing the
parsed pair through the modifier vocabulary and re-parsing does *not*
reproduce the parse result, refuting the claim as stated for arbitrary
strings. -/
theorem c8_parser_counterexample :
    matchModifier (lit "a.js#x=1") = none ∧
    parseRefStr (lit "a.js#x=1") ≠ (lit "a.js#x=1", ([] : Meta)) ∧
    parseRefStr (serializeRef (parseRefStr (lit "a.js#x=1")).1
        (parseRefStr (lit "a.js#x=1")).2) ≠
      parseRefStr (lit "a.js#x=1") := by
  refine ⟨?_, ?_, ?_⟩ <;> decide

/-! ## Lemmas about the inclusion-queue heap model -/

theorem hget_halloc_other (h : Heap) (v : IncludeList) (r : Handle)
    (hr : r ≠ h.next) : hget (halloc h v).1 r = hget h r := by
  unfold hget halloc
  rw [dictGet_dictSet]
  simp only [beq_iff_eq]
  rw [if_neg (fun he => hr he.symm)]

theorem hget_halloc_new (h : Heap) (v : IncludeList) :
    hget (halloc h v).1 h.next = v := by
  unfold hget halloc
  rw [dictGet_dictSet]
  simp

theorem hget_hmut_other (h : Heap) (r r' : Handle) (f : IncludeList → IncludeList)
    (hr : r' ≠ r) : hget (hmut h r f) r' = hget h r' := by
  unfold hget hmut
  rw [dictGet_dictSet]
  simp only [beq_iff_eq]
  rw [if_neg (fun he => hr he.symm)]

theorem hget_hmut_self (h : Heap) (r : Handle) (f : IncludeList → IncludeList) :
    hget (hmut h r f) r = f (hget h r) := by
  unfold hget hmut
  rw [dictGet_dictSet]
  simp only [beq_self_eq_true, if_true, Option.getD_some]
  rfl

theorem includeList_delta (bundles : List (Str × List Str)) (target : IncludeList)
    (paths : List Str) (priority : Int) :
    includeList bundles target paths priority =
      target ++ includeList bundles [] paths priority := by
  induction paths generalizing target with
  | nil => simp [includeList]
  | cons p paths ih =>
      have hstep : ∀ t : IncludeList,
          includeList bundles t (p :: paths) priority =
            includeList bundles
              (match dictGet bundles p with
               | some files => t ++ files.map (fun f => (priority, f))
               | none => t ++ [(priority, p)]) paths priority := fun _ => rfl
      rcases h : dictGet bundles p with _ | files
      · rw [hstep target, hstep []]
        simp only [h]
        rw [ih (target ++ [(priority, p)]), ih ([] ++ [(priority, p)])]
        simp [List.append_assoc]
      · rw [hstep target, hstep []]
        simp only [h]
        rw [ih (target ++ files.map (fun f => (priority, f))),
          ih ([] ++ files.map (fun f => (priority, f)))]
        simp [List.append_assoc]

theorem runIncludes_preserves_app (calls : List (List Str × Int)) :
    ∀ (e : IncludeEnv) (r : Handle), e.gInclude = some r → r ≠ e.appInclude →
      (runIncludes e calls).appInclude = e.appInclude ∧
      (runIncludes e calls).gInclude = some r ∧
      hget (runIncludes e calls).heap e.appInclude = hget e.heap e.appInclude := by
  induction calls with
  | nil => exact fun e r hg _ => ⟨rfl, hg, rfl⟩
  | cons c calls ih =>
      intro e r hg hr
      have htarget : includeTarget e = r := by simp [includeTarget, hg]
      have happ : (includeCall e c.1 c.2).appInclude = e.appInclude := rfl
      have hgi : (includeCall e c.1 c.2).gInclude = some r := hg
      have hh : hget (includeCall e c.1 c.2).heap e.appInclude =
          hget e.heap e.appInclude := by
        simp only [includeCall, htarget]
        exact hget_hmut_other e.heap r e.appInclude _ (fun he => hr he.symm)
      have hfold : runIncludes e (c :: calls) =
          runIncludes (includeCall e c.1 c.2) calls := rfl
      rw [hfold]
      rcases ih (includeCall e c.1 c.2) r hgi hr with ⟨h1, h2, h3⟩
      exact ⟨h1, h2, h3.trans hh⟩

/-- C9: `before_request` starts the render cycle from a *fresh copy* of the
application-level include list (`g.include_assets = list(state.include)`,
plus the tailwind inclusion when configured, appended to the request-local
queue only), and no sequence of `include()` calls made during the request
changes the list object `state.include` names. -/
theorem c9_request_queue_isolated (e : IncludeEnv) (tw : Option Str) (ou : Str)
    (hn : e.appInclude < e.heap.next) :
    (beforeRequest e tw ou).appInclude = e.appInclude ∧
    (∃ r, (beforeRequest e tw ou).gInclude = some r ∧ r ≠ e.appInclude ∧
      hget (beforeRequest e tw ou).heap r =
        hget e.heap e.appInclude ++
          (match tw with
           | none => []
           | some twf => includeList e.bundles [] [ou ++ lit "/" ++ twf] 1)) ∧
    hget (beforeRequest e tw ou).heap e.appInclude = hget e.heap e.appInclude ∧
    ∀ calls, hget (runIncludes (beforeRequest e tw ou) calls).heap e.appInclude =
      hget e.heap e.appInclude := by
  have hne : e.heap.next ≠ e.appInclude := fun he => by
    rw [he] at hn; exact lt_irrefl _ hn
  have hneApp : e.appInclude ≠ e.heap.next := fun he => hne he.symm
  rcases tw with _ | twf
  · have hA : hget (beforeRequest e none ou).heap e.appInclude =
        hget e.heap e.appInclude :=
      hget_halloc_other e.heap _ e.appInclude hneApp
    refine ⟨rfl, ⟨e.heap.next, rfl, hne, ?_⟩, hA, ?_⟩
    · show hget (halloc e.heap (hget e.heap e.appInclude)).1 e.heap.next =
        hget e.heap e.appInclude ++ ([] : IncludeList)
      rw [hget_halloc_new]
      simp
    · intro calls
      have h := runIncludes_preserves_app calls (beforeRequest e none ou)
        e.heap.next rfl hne
      exact (h.2.2).trans hA
  · have hA : hget (beforeRequest e (some twf) ou).heap e.appInclude =
        hget e.heap e.appInclude := by
      show hget (hmut (halloc e.heap (hget e.heap e.appInclude)).1 e.heap.next
          (fun t => includeList e.bundles t [ou ++ lit "/" ++ twf] 1))
        e.appInclude = hget e.heap e.appInclude
      rw [hget_hmut_other _ _ _ _ hneApp]
      exact hget_halloc_other e.heap _ e.appInclude hneApp
    refine ⟨rfl, ⟨e.heap.next, rfl, hne, ?_⟩, hA, ?_⟩
    · show hget (hmut (halloc e.heap (hget e.heap e.appInclude)).1 e.heap.next
          (fun t => includeList e.bundles t [ou ++ lit "/" ++ twf] 1))
        e.heap.next =
        hget e.heap e.appInclude ++ includeList e.bundles [] [ou ++ lit "/" ++ twf] 1
      rw [hget_hmut_self, hget_halloc_new]
      exact includeList_delta e.bundles _ _ 1
    · intro calls
      have h := runIncludes_preserves_app calls (beforeRequest e (some twf) ou)
        e.heap.next rfl hne
      exact (h.2.2).trans hA

/-! ## Lemmas about the tag renderer -/

theorem tagsCore_success :
    ∀ (resolved : List (Str × Meta)) (pre tags : List Str),
      (∀ e ∈ resolved, (renderEntry e).isSome = true) →
      tagsCore resolved pre tags =
        some (pre ++ hintRenders resolved, tags ++ bodyRenders resolved) := by
  intro resolved
  induction resolved with
  | nil => intro pre tags _; simp [tagsCore, hintRenders, bodyRenders]
  | cons e rest ih =>
      intro pre tags h
      have he : (renderEntry e).isSome = true := h e (List.mem_cons_self e rest)
      have hrest : ∀ x ∈ rest, (renderEntry x).isSome = true := fun x hx =>
        h x (List.mem_cons_of_mem e hx)
      rcases hre : renderEntry e with _ | ⟨b, s⟩
      · rw [hre] at he; simp at he
      · rcases b with _ | _
        · have : tagsCore (e :: rest) pre tags = tagsCore rest pre (tags ++ [s]) := by
            simp [tagsCore, hre]
          rw [this, ih pre (tags ++ [s]) hrest]
          simp [hintRenders, bodyRenders, List.filterMap_cons, hre, List.append_assoc]
        · have : tagsCore (e :: rest) pre tags = tagsCore rest (pre ++ [s]) tags := by
            simp [tagsCore, hre]
          rw [this, ih (pre ++ [s]) tags hrest]
          simp [hintRenders, bodyRenders, List.filterMap_cons, hre, List.append_assoc]

/-- C6: the tag renderer classifies every resolved `(url, meta)` entry —
`prefetch`/`preload`/`modulepreload` modifiers render as the corresponding
`<link rel=...>` hint, `import` as a module `<script>`, a `.css` URL or
`content_type=style` as a stylesheet `<link>`, anything else as a bare
`<script>`; every hint is emitted before every script/style tag (the output
is `"\n".join(pre + tags)` with hints in `pre` and the optional import-map
block, scripts/styles and the optional dev snippet in `tags`); and the
concrete set of one `.css` URL, one `modifier=import` `.js` URL and one
`modifier=prefetch` URL renders exactly one tag of each kind with the
prefetch hint first. -/
theorem c6_tag_classification_and_order :
    (∀ url meta, dictGet meta (lit "modifier") = some (MetaVal.str (lit "prefetch")) →
      renderEntry (url, meta) = some (true,
        lit "<link rel=\x22prefetch\x22 href=\x22" ++ url ++ lit "\x22" ++
          renderAttrs meta ++ lit ">")) ∧
    (∀ url meta ct, dictGet meta (lit "modifier") = some (MetaVal.str (lit "preload")) →
      dictGet meta (lit "content_type") = some ct →
      renderEntry (url, meta) = some (true,
        lit "<link rel=\x22preload\x22 href=\x22" ++ url ++ lit "\x22 as=\x22" ++
          metaValStr ct ++ lit "\x22" ++ renderAttrs meta ++ lit ">")) ∧
    (∀ url meta, dictGet meta (lit "modifier") = some (MetaVal.str (lit "modulepreload")) →
      renderEntry (url, meta) = some (true,
        lit "<link rel=\x22modulepreload\x22 href=\x22" ++ url ++ lit "\x22" ++
          renderAttrs meta ++ lit ">")) ∧
    (∀ url meta, dictGet meta (lit "modifier") = some (MetaVal.str (lit "import")) →
      renderEntry (url, meta) = some (false,
        lit "<script src=\x22" ++ url ++ lit "\x22 type=\x22module\x22" ++
          renderAttrs meta ++ lit "></script>")) ∧
    (∀ url meta,
      dictGet meta (lit "modifier") ≠ some (MetaVal.str (lit "prefetch")) →
      dictGet meta (lit "modifier") ≠ some (MetaVal.str (lit "preload")) →
      dictGet meta (lit "modifier") ≠ some (MetaVal.str (lit "modulepreload")) →
      dictGet meta (lit "modifier") ≠ some (MetaVal.str (lit "import")) →
      ((lit ".css").isSuffixOf url = true ∨
        dictGet meta (lit "content_type") = some (MetaVal.str (lit "style"))) →
      renderEntry (url, meta) = some (false,
        lit "<link rel=\x22stylesheet\x22 href=\x22" ++ url ++ lit "\x22" ++
          renderAttrs meta ++ lit ">")) ∧
    (∀ url meta,
      dictGet meta (lit "modifier") ≠ some (MetaVal.str (lit "prefetch")) →
      dictGet meta (lit "modifier") ≠ some (MetaVal.str (lit "preload")) →
      dictGet meta (lit "modifier") ≠ some (MetaVal.str (lit "modulepreload")) →
      dictGet meta (lit "modifier") ≠ some (MetaVal.str (lit "import")) →
      (lit ".css").isSuffixOf url = false →
      dictGet meta (lit "content_type") ≠ some (MetaVal.str (lit "style")) →
      renderEntry (url, meta) = some (false,
        lit "<script src=\x22" ++ url ++ lit "\x22" ++ renderAttrs meta ++
          lit "></script>")) ∧
    (∀ (im : List (Str × Str)) (debug : Bool) (lr : Str)
        (resolved : List (Str × Meta)),
      (∀ e ∈ resolved, (renderEntry e).isSome = true) →
      tagsRender im debug lr resolved =
        some (List.intercalate (lit "\n")
          (hintRenders resolved ++
            ((if im.isEmpty then [] else [importMapBlock im]) ++
              bodyRenders resolved ++ (if debug then [lr] else []))))) ∧
    tagsRender [] false (lit "LIVE")
        [(lit "/app.css", []),
         (lit "/app.js", [(lit "modifier", MetaVal.str (lit "import"))]),
         (lit "/chunk.js", [(lit "modifier", MetaVal.str (lit "prefetch"))])] =
      some (lit "<link rel=\x22prefetch\x22 href=\x22/chunk.js\x22>\n<link rel=\x22stylesheet\x22 href=\x22/app.css\x22>\n<script src=\x22/app.js\x22 type=\x22module\x22></script>") := by
  refine ⟨?_, ?_, ?_, ?_, ?_, ?_, ?_, ?_⟩
  · intro url meta h
    simp [renderEntry, h]
  · intro url meta ct h hct
    have d1 : ¬(lit "preload" = lit "prefetch") := by decide
    simp [renderEntry, h, hct, d1]
  · intro url meta h
    have d1 : ¬(lit "modulepreload" = lit "prefetch") := by decide
    have d2 : ¬(lit "modulepreload" = lit "preload") := by decide
    simp [renderEntry, h, d1, d2]
  · intro url meta h
    have d1 : ¬(lit "import" = lit "prefetch") := by decide
    have d2 : ¬(lit "import" = lit "preload") := by decide
    have d3 : ¬(lit "import" = lit "modulepreload") := by decide
    simp [renderEntry, h, d1, d2, d3]
  · intro url meta g1 g2 g3 g4 hstyle
    have h1 := beq_false_of_ne g1
    have h2 := beq_false_of_ne g2
    have h3 := beq_false_of_ne g3
    have h4 := beq_false_of_ne g4
    rcases hstyle with hcss | hct
    · simp [renderEntry, h1, h2, h3, h4, hcss]
    · simp [renderEntry, h1, h2, h3, h4, hct]
  · intro url meta g1 g2 g3 g4 hcss hct
    have h1 := beq_false_of_ne g1
    have h2 := beq_false_of_ne g2
    have h3 := beq_false_of_ne g3
    have h4 := beq_false_of_ne g4
    have h5 := beq_false_of_ne hct
    simp [renderEntry, h1, h2, h3, h4, h5, hcss]
  · intro im debug lr resolved h
    have hc := tagsCore_success resolved []
      (if im.isEmpty = true then [] else [importMapBlock im]) h
    simp only [tagsRender, hc]
    cases debug <;> simp [List.append_assoc]
  · rfl

/-- C6 (witness): the ordering conjunct of `c6_tag_classification_and_order`
applied to the concrete three-entry resolved set. -/
theorem c6_tag_classification_and_order_witness :
    tagsRender [] false (lit "LIVE")
        [(lit "/app.css", []),
         (lit "/app.js", [(lit "modifier", MetaVal.str (lit "import"))]),
         (lit "/chunk.js", [(lit "modifier", MetaVal.str (lit "prefetch"))])] =
      some (List.intercalate (lit "\n")
        (hintRenders
            [(lit "/app.css", []),
             (lit "/app.js", [(lit "modifier", MetaVal.str (lit "import"))]),
             (lit "/chunk.js", [(lit "modifier", MetaVal.str (lit "prefetch"))])] ++
          (([] : List Str) ++
            bodyRenders
              [(lit "/app.css", []),
               (lit "/app.js", [(lit "modifier", MetaVal.str (lit "import"))]),
               (lit "/chunk.js", [(lit "modifier", MetaVal.str (lit "prefetch"))])] ++
            ([] : List Str)))) :=
  c6_tag_classification_and_order.2.2.2.2.2.2.1 [] false (lit "LIVE")
    [(lit "/app.css", []),
     (lit "/app.js", [(lit "modifier", MetaVal.str (lit "import"))]),
     (lit "/chunk.js", [(lit "modifier", MetaVal.str (lit "prefetch"))])]
    (by decide)

/-- C9 (witness): `c9_request_queue_isolated` at a concrete application
state, with tailwind configured and one `include()` call in the request. -/
theorem c9_request_queue_isolated_witness :
    hget (runIncludes
        (beforeRequest sampleIncludeEnv (some (lit "tw.css")) (lit "/static/dist"))
        [([lit "extra.js"], 2)]).heap sampleIncludeEnv.appInclude =
      hget sampleIncludeEnv.heap sampleIncludeEnv.appInclude :=
  (c9_request_queue_isolated sampleIncludeEnv (some (lit "tw.css"))
    (lit "/static/dist") (by decide)).2.2.2 [([lit "extra.js"], 2)]

end FlaskAssets
